import Mathlib

/-!
Verification of the thermal-printer graphics and protocol pipeline.

The definitions below are shallow embeddings of the repository's C++
sources (`BitmapCanvas.h`, `GraphGenerator.h`, `ThermalPrinter.h` and the
packet-framing helpers of the serial-communication guide): machine
integers become `Nat`/`Int` (with explicit `% 2 ^ w` where wrap-around
matters), `float` data becomes `ℚ`, byte buffers become `List Nat`, and
the serial transport becomes an explicit function from write requests to
accepted byte counts.
-/

namespace PrinterSerial

/-! ### Command-channel packet framing (sendPacket / receivePacket) -/

/-- XOR of a list of bytes, as used by the packet checksum loops. -/
def xorList : List Nat → Nat
  | [] => 0
  | b :: t => b ^^^ xorList t

/-- Checksum computed by both `sendPacket` and `receivePacket`:
`0xAA ^ cmd ^ len ^ data[0] ^ ... ^ data[len-1]`. -/
def packetChecksum (cmd len : Nat) (data : List Nat) : Nat :=
  0xAA ^^^ cmd ^^^ len ^^^ xorList data

/-- Byte stream emitted by `sendPacket`: header `0xAA`, command, length,
payload bytes, then the XOR checksum. -/
def sendPacketBytes (cmd : Nat) (data : List Nat) : List Nat :=
  0xAA :: cmd :: data.length :: (data ++ [packetChecksum cmd data.length data])

/-- `receivePacket`'s validation of an inbound byte stream: needs at least
4 bytes, a `0xAA` header, a length byte of at most 32, `length + 1`
further bytes, and a matching XOR checksum. -/
def receivePacketValid (s : List Nat) : Bool :=
  match s with
  | h :: c :: l :: rest =>
    if h ≠ 0xAA then false
    else if 32 < l then false
    else if rest.length < l + 1 then false
    else decide (packetChecksum c l (rest.take l) = rest.getD l 0)
  | _ => false

/-! ### ThermalPrinter raster-bitmap transfer (printBitmap) -/

/-- The 8-byte `GS v 0` raster header written by `printBitmap`:
`GS 'v' '0' 0x00`, then `width/8` and `height` as little-endian 16-bit
values. -/
def rasterHeader (width height : Nat) : List Nat :=
  [0x1D, 0x76, 0x30, 0x00,
   (width / 8) % 256, ((width / 8) >>> 8) % 256,
   height % 256, (height >>> 8) % 256]

/-- The chunked payload loop of `printBitmap`: while fewer than `total`
bytes have been sent, write `min 512 (total - sent)` bytes and advance by
however many the transport accepted.  `accept k n` is the byte count the
transport reports for the `k`-th chunk write of `n` bytes.  Returns the
number of chunk writes issued, or `none` if the loop bound `fuel` is
exhausted before completion. -/
def chunkWrites (accept : Nat → Nat → Nat) (total : Nat) :
    Nat → Nat → Nat → Option Nat
  | 0, _, sent => if total ≤ sent then some 0 else none
  | fuel + 1, k, sent =>
    if total ≤ sent then some 0
    else
      let req := min 512 (total - sent)
      let written := accept k req
      (chunkWrites accept total fuel (k + 1) (sent + written)).map (· + 1)

/-- `printBitmap width height`: send the raster header (call index 0 of
the transport); if the transport accepted fewer than all 8 header bytes,
return `false`; otherwise stream `width/8 * height` payload bytes in
512-byte chunks (call indices 1, 2, ...) and return `true`.  The result
also records how many chunk writes were issued; `none` models a chunk
loop that never finishes. -/
def printBitmap (accept : Nat → Nat → Nat) (width height : Nat)
    (fuel : Nat) : Option (Bool × Nat) :=
  let hdr := rasterHeader width height
  if accept 0 hdr.length ≠ hdr.length then some (false, 0)
  else
    match chunkWrites (fun k n => accept (k + 1) n) ((width / 8) * height)
        fuel 0 0 with
    | some n => some (true, n)
    | none => none

/-! ### BitmapCanvas -/

/-- The 1-bit-per-pixel framebuffer of `BitmapCanvas`: `width`, `height`,
`bytesPerLine` and the packed byte buffer. -/
structure Canvas where
  width : Nat
  height : Nat
  bytesPerLine : Nat
  data : List Nat

/-- Well-formedness established by the constructor: the width is a
multiple of 8, `bytesPerLine = width / 8`, and the buffer holds exactly
`bytesPerLine * height` bytes. -/
def Canvas.WF (c : Canvas) : Prop :=
  8 ∣ c.width ∧ c.bytesPerLine = c.width / 8 ∧
    c.data.length = c.bytesPerLine * c.height

/-- A freshly constructed (and cleared) canvas. -/
def mkCanvas (w h : Nat) : Canvas :=
  { width := w, height := h, bytesPerLine := w / 8,
    data := List.replicate ((w / 8) * h) 0 }

/-- `BitmapCanvas::setPixel`: out-of-range coordinates are ignored;
otherwise byte `(x/8) + y*bytesPerLine` gets bit `0x80 >> (x & 7)` ORed
in. -/
def setPixel (c : Canvas) (x y : Int) : Canvas :=
  if x < 0 ∨ (c.width : Int) ≤ x ∨ y < 0 ∨ (c.height : Int) ≤ y then c
  else
    let byteIndex := x.toNat / 8 + y.toNat * c.bytesPerLine
    let bitPosition := x.toNat % 8
    { c with
      data := c.data.set byteIndex
        (c.data.getD byteIndex 0 ||| (0x80 >>> bitPosition)) }

/-- Reading a pixel back from the packed buffer: bit `7 - (x % 8)` of
byte `(x/8) + y*bytesPerLine`; out-of-range coordinates read as white. -/
def getPixel (c : Canvas) (x y : Int) : Bool :=
  if x < 0 ∨ (c.width : Int) ≤ x ∨ y < 0 ∨ (c.height : Int) ≤ y then false
  else (c.data.getD (x.toNat / 8 + y.toNat * c.bytesPerLine) 0).testBit
    (7 - x.toNat % 8)

/-- Whether `(px, py)` lies inside the canvas bounds. -/
def inBoundsB (c : Canvas) (px py : Int) : Bool :=
  decide (0 ≤ px ∧ px < (c.width : Int) ∧ 0 ≤ py ∧ py < (c.height : Int))

/-- The offsets `-half, ..., half` traversed by the thickness loops of
`drawLine`. -/
def intRange (half : Nat) : List Int :=
  (List.range (2 * half + 1)).map (fun (k : Nat) => (k : Int) - half)

/-- The square-stamping step of `drawLine`: paint every offset pair in
`[-half, half] × [-half, half]` around `(x, y)` (outer loop over the
vertical offset, inner loop over the horizontal offset). -/
def paintSquare (c : Canvas) (x y : Int) (half : Nat) : Canvas :=
  ((intRange half).flatMap (fun ty =>
      (intRange half).map (fun tx => (tx, ty)))).foldl
    (fun acc p => setPixel acc (x + p.1) (y + p.2)) c

/-- One Bresenham step of `drawLine`: from state `(x0, y0, err)` compute
`e2 = 2*err` and advance `x0` by `sx` when `e2 >= dy`, `y0` by `sy` when
`e2 <= dx`, updating `err` accordingly. -/
def bresNext (sx sy dx dy x0 y0 err : Int) : Int × Int × Int :=
  let e2 := 2 * err
  (if dy ≤ e2 then x0 + sx else x0,
   if e2 ≤ dx then y0 + sy else y0,
   (if dy ≤ e2 then err + dy else err) + (if e2 ≤ dx then dx else 0))

/-- The main loop of `drawLine`: stamp a square at the current point,
stop when `(x1, y1)` is reached, otherwise take a Bresenham step.  `fuel`
is an upper bound on the number of iterations (the loop visits at most
`|x1-x0| + |y1-y0| + 1` points). -/
def drawLineLoop (x1 y1 sx sy dx dy : Int) (half : Nat) :
    Canvas → Int → Int → Int → Nat → Canvas
  | c, _, _, _, 0 => c
  | c, x0, y0, err, fuel + 1 =>
    let c' := paintSquare c x0 y0 half
    if x0 = x1 ∧ y0 = y1 then c'
    else
      let s := bresNext sx sy dx dy x0 y0 err
      drawLineLoop x1 y1 sx sy dx dy half c' s.1 s.2.1 s.2.2 fuel

/-- The Bresenham points visited by `drawLineLoop`, with the same
initial state and the same step relation. -/
def bresenhamRun (x1 y1 sx sy dx dy : Int) :
    Int → Int → Int → Nat → List (Int × Int)
  | _, _, _, 0 => []
  | x0, y0, err, fuel + 1 =>
    (x0, y0) ::
      (if x0 = x1 ∧ y0 = y1 then []
       else
        let s := bresNext sx sy dx dy x0 y0 err
        bresenhamRun x1 y1 sx sy dx dy s.1 s.2.1 s.2.2 fuel)

/-- `BitmapCanvas::drawLine`: Bresenham's integer line algorithm with a
`thickness/2` stamping radius. -/
def drawLine (c : Canvas) (x0 y0 x1 y1 : Int) (thickness : Nat) : Canvas :=
  let dx := |x1 - x0|
  let dy := -|y1 - y0|
  let sx : Int := if x0 < x1 then 1 else -1
  let sy : Int := if y0 < y1 then 1 else -1
  drawLineLoop x1 y1 sx sy dx dy (thickness / 2) c x0 y0 (dx + dy)
    ((x1 - x0).natAbs + (y1 - y0).natAbs + 1)

/-- The stepped points of `drawLine c x0 y0 x1 y1 t`, independent of the
canvas. -/
def bresenhamPoints (x0 y0 x1 y1 : Int) : List (Int × Int) :=
  let dx := |x1 - x0|
  let dy := -|y1 - y0|
  let sx : Int := if x0 < x1 then 1 else -1
  let sy : Int := if y0 < y1 then 1 else -1
  bresenhamRun x1 y1 sx sy dx dy x0 y0 (dx + dy)
    ((x1 - x0).natAbs + (y1 - y0).natAbs + 1)

/-- Number of black pixels on the canvas. -/
def blackCount (c : Canvas) : Nat :=
  ((List.range c.height).map (fun (y : Nat) =>
    ((List.range c.width).filter (fun (x : Nat) =>
      getPixel c (x : Int) (y : Int))).length)).sum

/-! ### GraphGenerator -/

/-- One step of the linear congruential generator of
`GraphGenerator::random_float`:
`seed = (1103515245 * seed + 12345) & 0x7FFFFFFF`. -/
def lcgNext (seed : Nat) : Nat :=
  (1103515245 * seed + 12345) % (2 ^ 31)

/-- Arduino's `constrain`: `amt < low ? low : (amt > high ? high : amt)`. -/
def constrainQ (amt low high : ℚ) : ℚ :=
  if amt < low then low else if high < amt then high else amt

/-- The value `random_float(lo, hi)` returns for a freshly advanced seed
`s`: `lo + (s / 0x7FFFFFFF) * (hi - lo)`. -/
def randomFloatVal (s : Nat) (lo hi : ℚ) : ℚ :=
  lo + ((s : ℚ) / (2 ^ 31 - 1)) * (hi - lo)

/-- The rise segment of `GraphGenerator::generateBuildUpCurve`: `n` more
points starting at index `i`, with quadratic (`quad = true`, noise in
`[-3, 3]`) or linear (`quad = false`, noise in `[-8, 8]`) base values,
each clamped to `[0, yMax]`; each point advances the LCG seed once. -/
def riseValues (yMaxQ : ℚ) (risePoints : Nat) (quad : Bool) :
    Nat → Nat → Nat → List ℚ
  | _, _, 0 => []
  | seed, i, n + 1 =>
    let seed' := lcgNext seed
    let noise := if quad then randomFloatVal seed' (-3) 3
                 else randomFloatVal seed' (-8) 8
    let progress : ℚ := (i : ℚ) / (risePoints : ℚ)
    let base := if quad then yMaxQ * (progress * progress)
                else yMaxQ * progress
    constrainQ (base + noise) 0 yMaxQ :: riseValues yMaxQ risePoints quad seed' (i + 1) n

/-- `GraphGenerator::generateBuildUpCurve`: `risePoints = numPoints*26/30`
rise samples followed by exact zeros; pattern 1 is quadratic, pattern 2 is
linear, any other pattern fails. -/
def generateBuildUpCurve (yMax seed numPoints pattern : Nat) :
    Option (List ℚ) :=
  let risePoints := numPoints * 26 / 30
  if pattern = 1 then
    some (riseValues (yMax : ℚ) risePoints true seed 0 risePoints ++
      List.replicate (numPoints - risePoints) 0)
  else if pattern = 2 then
    some (riseValues (yMax : ℚ) risePoints false seed 0 risePoints ++
      List.replicate (numPoints - risePoints) 0)
  else none

/-- The configuration state built by the `GraphGenerator` constructor;
`randSeed` is initialized from the `micros()` timer reading, the last
constructor statement. -/
structure GraphGenerator where
  width : Nat
  height : Nat
  leftMargin : Nat
  topMargin : Nat
  xMax : Nat
  xStep : Nat
  yMax : Nat
  yStep : Nat
  gridXSpacing : Nat
  gridYSpacing : Nat
  graphWidth : Nat
  graphStartX : Nat
  graphStartY : Nat
  randSeed : Nat

/-- The `GraphGenerator` constructor: stores the layout arguments,
derives `graphWidth = gridYSpacing * (yMax / yStep)`, and seeds the LCG
from the current `micros()` timer value. -/
def mkGraphGenerator (w h lm tm xmax xstp ymax ystp gridX gridY : Nat)
    (microsNow : Nat) : GraphGenerator :=
  { width := w, height := h, leftMargin := lm, topMargin := tm,
    xMax := xmax, xStep := xstp, yMax := ymax, yStep := ystp,
    gridXSpacing := gridX, gridYSpacing := gridY,
    graphWidth := gridY * (ymax / ystp),
    graphStartX := lm, graphStartY := tm,
    randSeed := microsNow }

/-- `generateBuildUpCurve` as invoked on a constructed generator: it
draws its noise from the generator's stored seed. -/
def GraphGenerator.generate (g : GraphGenerator) (numPoints pattern : Nat) :
    Option (List ℚ) :=
  generateBuildUpCurve g.yMax g.randSeed numPoints pattern

/-- The max-pooling downsampler at the start of
`GraphGenerator::drawCurve`: when the series is longer than the target
height, window `i` covers input indices
`[floor(i*ratio), floor((i+1)*ratio))` (clipped to the input length) with
`ratio = len/graphHeight`, and the output is the window maximum computed
by folding `max` from `0`; otherwise the series is copied and
zero-padded. -/
def maxPool (rawData : List ℚ) (graphHeight : Nat) : List ℚ :=
  if graphHeight < rawData.length then
    (List.range graphHeight).map (fun (i : Nat) =>
      let start := ⌊(i : ℚ) * ((rawData.length : ℚ) / (graphHeight : ℚ))⌋₊
      let stop := ⌊((i : ℚ) + 1) * ((rawData.length : ℚ) / (graphHeight : ℚ))⌋₊
      ((List.range' start (min stop rawData.length - start)).map
        (fun j => rawData.getD j 0)).foldl max 0)
  else rawData ++ List.replicate (graphHeight - rawData.length) 0

/-- The index window summed by `GraphGenerator::applyMovingAverage` at
output index `i`: all `j` in `[i - half, i + half]` that satisfy
`0 ≤ j < len`. -/
def windowIdx (len i half : Nat) : List Int :=
  ((List.range (2 * half + 1)).map
      (fun (k : Nat) => ((i : Int) - half) + k)).filter
    (fun j => decide (0 ≤ j) && decide (j < (len : Int)))

/-- `GraphGenerator::applyMovingAverage`: windows of fewer than 2 samples
leave the data untouched; otherwise each element is replaced by the sum
over its clipped window divided by the number of in-range indices. -/
def applyMovingAverage (data : List ℚ) (window : Nat) : List ℚ :=
  if window < 2 then data
  else
    (List.range data.length).map (fun i =>
      let idxs := windowIdx data.length i (window / 2)
      ((idxs.map (fun j => data.getD j.toNat 0)).sum) / (idxs.length : ℚ))

/-- Modelled from the spec: the smoothing contract of §4.3 — at index `i`
average all available samples in `[i-5, i+5]` clipped to the valid range,
with the divisor equal to the number of in-range samples. -/
def specWindowMean (data : List ℚ) (i : Nat) : ℚ :=
  let lo := i - 5
  let hi := min (i + 5) (data.length - 1)
  (((List.range' lo (hi + 1 - lo)).map (fun j => data.getD j 0)).sum) /
    ((hi + 1 - lo : Nat) : ℚ)

/-! ### Helper lemmas: XOR and list surgery -/

theorem xorList_append (l1 l2 : List Nat) :
    xorList (l1 ++ l2) = xorList l1 ^^^ xorList l2 := by
  induction l1 with
  | nil => simp [xorList]
  | cons b t ih => simp [xorList, ih, Nat.xor_assoc]

theorem xor_left_comm (a b c : Nat) : a ^^^ (b ^^^ c) = b ^^^ (a ^^^ c) := by
  rw [← Nat.xor_assoc, Nat.xor_comm a b, Nat.xor_assoc]

theorem xorList_set (l : List Nat) (i v : Nat) (h : i < l.length) :
    xorList (l.set i v) = xorList l ^^^ l.getD i 0 ^^^ v := by
  induction l generalizing i with
  | nil => simp at h
  | cons b t ih =>
    cases i with
    | zero =>
      simp only [List.set, xorList, List.getD_cons_zero]
      simp [Nat.xor_comm, Nat.xor_assoc, xor_left_comm, Nat.xor_self,
        Nat.xor_zero, Nat.zero_xor, Nat.xor_cancel_left]
    | succ i =>
      simp only [List.set, xorList, List.getD_cons_succ]
      rw [ih i (by simpa using h), ← Nat.xor_assoc, ← Nat.xor_assoc]

theorem packetChecksum_inj_cmd (c c' l : Nat) (P : List Nat) :
    packetChecksum c l P = packetChecksum c' l P ↔ c = c' := by
  unfold packetChecksum
  constructor
  · intro h
    have h1 := Nat.xor_left_inj.mp h
    have h2 := Nat.xor_left_inj.mp h1
    exact Nat.xor_right_inj.mp h2
  · rintro rfl; rfl

theorem packetChecksum_set_ne (c l : Nat) (P : List Nat) (p v : Nat)
    (hp : p < P.length) (hv : v ≠ P.getD p 0) :
    packetChecksum c l (P.set p v) ≠ packetChecksum c l P := by
  unfold packetChecksum
  intro h
  have h1 : xorList (P.set p v) = xorList P := Nat.xor_right_inj.mp h
  rw [xorList_set P p v hp, Nat.xor_assoc] at h1
  conv_rhs at h1 => rw [← Nat.xor_zero (xorList P)]
  have h2 := Nat.xor_right_inj.mp h1
  exact hv (Nat.xor_eq_zero.mp h2).symm

theorem getD_append_last (l : List Nat) (x : Nat) :
    (l ++ [x]).getD l.length 0 = x := by
  induction l with
  | nil => rfl
  | cons b t ih => simp only [List.cons_append, List.length_cons,
      List.getD_cons_succ]; exact ih

/-- Validation succeeds on every well-formed frame that `sendPacket`
emits (payload of at most 32 bytes). -/
theorem receive_send_valid (cmd : Nat) (data : List Nat)
    (hL : data.length ≤ 32) :
    receivePacketValid (sendPacketBytes cmd data) = true := by
  simp only [sendPacketBytes, receivePacketValid]
  rw [if_neg (by simp), if_neg (by omega), if_neg (by simp)]
  rw [List.take_left' rfl, getD_append_last]
  simp

/-- Claim C7: the transmitted checksum byte is the XOR of header,
command, length and payload bytes, and the frame validates; and — the
amended part — corrupting any single byte at a position other than the
length byte (index 2) of the frame makes `receivePacket`'s validation
fail. -/
theorem sendPacket_checksum_corruption (cmd : Nat) (data : List Nat)
    (hL : data.length ≤ 32) (j v : Nat) (hj2 : j ≠ 2)
    (hjlen : j < data.length + 4)
    (hv : v ≠ (sendPacketBytes cmd data).getD j 0) :
    (sendPacketBytes cmd data).getD (data.length + 3) 0
        = 0xAA ^^^ cmd ^^^ data.length ^^^ xorList data
    ∧ receivePacketValid (sendPacketBytes cmd data) = true
    ∧ receivePacketValid ((sendPacketBytes cmd data).set j v) = false := by
  refine ⟨?_, receive_send_valid cmd data hL, ?_⟩
  · show (0xAA :: cmd :: data.length :: (data ++ [packetChecksum cmd data.length data])).getD
      (data.length + 3) 0 = _
    simp only [List.getD_cons_succ]
    rw [getD_append_last]
    rfl
  · match j, hj2 with
    | 0, _ =>
      have hv0 : v ≠ 0xAA := by
        intro h; exact hv (by simp [sendPacketBytes, h])
      simp [sendPacketBytes, receivePacketValid, List.set, hv0]
    | 1, _ =>
      have hv1 : v ≠ cmd := by
        intro h; exact hv (by simp [sendPacketBytes, h])
      simp only [sendPacketBytes, List.set, receivePacketValid]
      rw [if_neg (by simp), if_neg (by omega), if_neg (by simp)]
      rw [List.take_left' rfl, getD_append_last]
      simp only [decide_eq_false_iff_not]
      intro heq
      exact hv1 ((packetChecksum_inj_cmd v cmd data.length data).mp heq)
    | (p + 3), _ =>
      have hset : (sendPacketBytes cmd data).set (p + 3) v
          = 0xAA :: cmd :: data.length ::
            ((data ++ [packetChecksum cmd data.length data]).set p v) := by
        simp [sendPacketBytes, List.set]
      rcases Nat.lt_or_ge p data.length with hplt | hpge
      · -- a payload byte was corrupted
        have hframe : (sendPacketBytes cmd data).getD (p + 3) 0
            = data.getD p 0 := by
          simp only [sendPacketBytes, List.getD_cons_succ]
          exact List.getD_append _ _ _ _ hplt
        have hvp : v ≠ data.getD p 0 := hframe ▸ hv
        rw [hset, List.set_append_left _ _ hplt]
        simp only [receivePacketValid]
        rw [if_neg (by simp), if_neg (by omega),
          if_neg (by simp [List.length_set])]
        have hlen' : (data.set p v).length = data.length := List.length_set ..
        rw [List.take_left' hlen',
          List.getD_append_right _ _ _ _ (le_of_eq hlen')]
        simp only [hlen', Nat.sub_self, List.getD_cons_zero,
          decide_eq_false_iff_not]
        exact packetChecksum_set_ne cmd data.length data p v hplt hvp
      · -- the checksum byte was corrupted
        have hpeq : p = data.length := by omega
        subst hpeq
        have hframe : (sendPacketBytes cmd data).getD (data.length + 3) 0
            = packetChecksum cmd data.length data := by
          simp only [sendPacketBytes, List.getD_cons_succ]
          exact getD_append_last _ _
        have hvk : v ≠ packetChecksum cmd data.length data := hframe ▸ hv
        rw [hset]
        have hsetk : (data ++ [packetChecksum cmd data.length data]).set
            data.length v = data ++ [v] := by
          rw [List.set_append_right _ _ (le_refl _), Nat.sub_self]
          rfl
        rw [hsetk]
        simp only [receivePacketValid]
        rw [if_neg (by simp), if_neg (by omega), if_neg (by simp)]
        rw [List.take_left' rfl, getD_append_last]
        simp only [decide_eq_false_iff_not]
        intro h
        exact hvk h.symm

/-- Witness for `sendPacket_checksum_corruption` at `cmd = 3`,
`data = [7, 9]`, corrupting payload byte at index 4 to 0. -/
theorem sendPacket_checksum_corruption_witness :
    (sendPacketBytes 3 [7, 9]).getD (2 + 3) 0
        = 0xAA ^^^ 3 ^^^ 2 ^^^ xorList [7, 9]
    ∧ receivePacketValid (sendPacketBytes 3 [7, 9]) = true
    ∧ receivePacketValid ((sendPacketBytes 3 [7, 9]).set 4 0) = false := by
  have h := sendPacket_checksum_corruption 3 [7, 9] (by decide) 4 0
    (by decide) (by decide) (by decide)
  simpa using h

/-! ### printBitmap theorems -/

/-- The chunk loop against a transport that accepts every write in full
performs exactly `ceil(remaining / 512)` chunk writes. -/
theorem chunkWrites_full (total : Nat) :
    ∀ fuel sent k, (total - sent + 511) / 512 ≤ fuel →
      chunkWrites (fun _ n => n) total fuel k sent
        = some ((total - sent + 511) / 512) := by
  intro fuel
  induction fuel with
  | zero =>
    intro sent k h
    have hts : total ≤ sent := by omega
    have hz : (total - sent + 511) / 512 = 0 := by omega
    simp [chunkWrites, hts, hz]
  | succ fuel ih =>
    intro sent k h
    by_cases hts : total ≤ sent
    · have hz : (total - sent + 511) / 512 = 0 := by omega
      simp [chunkWrites, hts, hz]
    · simp only [chunkWrites, if_neg hts]
      rw [ih (sent + min 512 (total - sent)) (k + 1) (by omega)]
      have hcount : (total - (sent + min 512 (total - sent)) + 511) / 512 + 1
          = (total - sent + 511) / 512 := by omega
      simp [hcount]

/-- Claim C3: `printBitmap` writes the 8-byte raster header — `GS`, `v`,
`0`, mode `0x00`, then `width/8` and `height` as little-endian 16-bit
values — and, when the transport accepts every write in full, issues
exactly `ceil((width/8)*height / 512)` chunk writes after the one header
write. -/
theorem printBitmap_header_chunks (width height fuel : Nat)
    (hw : width < 2 ^ 16) (hh : height < 2 ^ 16)
    (hfuel : ((width / 8) * height + 511) / 512 ≤ fuel) :
    (rasterHeader width height).length = 8
    ∧ (rasterHeader width height).take 4 = [0x1D, 0x76, 0x30, 0x00]
    ∧ (rasterHeader width height).getD 4 0
        + 256 * (rasterHeader width height).getD 5 0 = width / 8
    ∧ (rasterHeader width height).getD 6 0
        + 256 * (rasterHeader width height).getD 7 0 = height
    ∧ printBitmap (fun _ n => n) width height fuel
        = some (true, ((width / 8) * height + 511) / 512) := by
  have h28 : (2 : Nat) ^ 8 = 256 := by norm_num
  refine ⟨rfl, rfl, ?_, ?_, ?_⟩
  · simp only [rasterHeader, List.getD_cons_succ, List.getD_cons_zero]
    rw [Nat.shiftRight_eq_div_pow, h28]
    omega
  · simp only [rasterHeader, List.getD_cons_succ, List.getD_cons_zero]
    rw [Nat.shiftRight_eq_div_pow, h28]
    omega
  · simp only [printBitmap]
    rw [if_neg (by simp)]
    rw [chunkWrites_full ((width / 8) * height) fuel 0 0 (by omega)]
    rfl

/-- Witness for `printBitmap_header_chunks` at the spec scenario
`printBitmap(512, 100)`: 13 chunk writes besides the header write. -/
theorem printBitmap_header_chunks_witness :
    (rasterHeader 512 100).length = 8
    ∧ (rasterHeader 512 100).take 4 = [0x1D, 0x76, 0x30, 0x00]
    ∧ (rasterHeader 512 100).getD 4 0 + 256 * (rasterHeader 512 100).getD 5 0
        = 512 / 8
    ∧ (rasterHeader 512 100).getD 6 0 + 256 * (rasterHeader 512 100).getD 7 0
        = 100
    ∧ printBitmap (fun _ n => n) 512 100 13
        = some (true, ((512 / 8) * 100 + 511) / 512) :=
  printBitmap_header_chunks 512 100 13 (by decide) (by decide) (by decide)

/-- Claim C4: `printBitmap` reports failure exactly when the header write
is short; once the header write has been accepted in full, every result
the chunk loop can return is success — payload short writes are never
escalated to a `false` return. -/
theorem printBitmap_false_iff_header_short (accept : Nat → Nat → Nat)
    (width height fuel : Nat) (hacc : accept 0 8 ≤ 8) :
    ((∃ n, printBitmap accept width height fuel = some (false, n))
      ↔ accept 0 8 < 8)
    ∧ (∀ b n, printBitmap accept width height fuel = some (b, n) →
        accept 0 8 = 8 → b = true) := by
  have hdr : (rasterHeader width height).length = 8 := rfl
  simp only [printBitmap, hdr]
  by_cases hne : accept 0 8 = 8
  · rw [if_neg (by simp [hne])]
    constructor
    · constructor
      · rintro ⟨n, hn⟩
        rcases hcw : chunkWrites (fun k n => accept (k + 1) n)
            ((width / 8) * height) fuel 0 0 with _ | m
        · rw [hcw] at hn; simp at hn
        · rw [hcw] at hn; simp at hn
      · intro hlt; omega
    · intro b n hb _
      rcases hcw : chunkWrites (fun k n => accept (k + 1) n)
          ((width / 8) * height) fuel 0 0 with _ | m
      · rw [hcw] at hb; simp at hb
      · rw [hcw] at hb; simp at hb; exact hb.1
  · rw [if_pos (by simp [hne])]
    constructor
    · exact ⟨fun _ => lt_of_le_of_ne hacc hne, fun _ => ⟨0, rfl⟩⟩
    · intro b n hb h8
      exact absurd h8 hne

/-- Witness for `printBitmap_false_iff_header_short` against a transport
that accepts nothing: the header write is short and `printBitmap`
reports failure. -/
theorem printBitmap_false_iff_header_short_witness :
    ((∃ n, printBitmap (fun _ _ => 0) 512 100 13 = some (false, n))
      ↔ (fun (_ _ : Nat) => 0) 0 8 < 8)
    ∧ (∀ b n, printBitmap (fun _ _ => 0) 512 100 13 = some (b, n) →
        (fun (_ _ : Nat) => 0) 0 8 = 8 → b = true) :=
  printBitmap_false_iff_header_short (fun _ _ => 0) 512 100 13 (by decide)

/-- Counterexample to C7 as stated: the frame
`[0xAA, 0x00, 0x01, 0xAA, 0x01]` (command 0, length 1, payload `[0xAA]`,
checksum 0x01) validates, yet changing its length byte (index 2) from 1
to 0 yields a frame that still validates: the receiver then treats the
old payload byte `0xAA` as the checksum, and `0xAA ^ 0 ^ 0 = 0xAA`
matches. -/
theorem receivePacket_single_corruption_undetected :
    receivePacketValid [0xAA, 0x00, 0x01, 0xAA, 0x01] = true
    ∧ (0 : Nat) ≠ [0xAA, 0x00, 0x01, 0xAA, 0x01].getD 2 0
    ∧ receivePacketValid ([0xAA, 0x00, 0x01, 0xAA, 0x01].set 2 0) = true := by
  decide

/-! ### generateBuildUpCurve theorems -/

theorem constrainQ_bounds (x lo hi : ℚ) (h : lo ≤ hi) :
    lo ≤ constrainQ x lo hi ∧ constrainQ x lo hi ≤ hi := by
  unfold constrainQ
  split_ifs with h1 h2
  · exact ⟨le_refl _, h⟩
  · exact ⟨h, le_refl _⟩
  · exact ⟨le_of_not_lt h1, le_of_not_lt h2⟩

theorem riseValues_length (y : ℚ) (rp : Nat) (q : Bool) :
    ∀ n seed i, (riseValues y rp q seed i n).length = n := by
  intro n
  induction n with
  | zero => intro seed i; rfl
  | succ n ih => intro seed i; simp [riseValues, ih]

theorem riseValues_mem_bounds (y : ℚ) (hy : 0 ≤ y) (rp : Nat) (q : Bool) :
    ∀ n seed i x, x ∈ riseValues y rp q seed i n → 0 ≤ x ∧ x ≤ y := by
  intro n
  induction n with
  | zero => intro seed i x hx; simp [riseValues] at hx
  | succ n ih =>
    intro seed i x hx
    simp only [riseValues, List.mem_cons] at hx
    rcases hx with rfl | hx
    · exact constrainQ_bounds _ 0 y hy
    · exact ih _ _ x hx

theorem getD_replicate_zero (n i : Nat) :
    (List.replicate n (0 : ℚ)).getD i 0 = 0 := by
  induction n generalizing i with
  | zero => cases i <;> rfl
  | succ n ih => cases i with
    | zero => rfl
    | succ i => simp only [List.replicate, List.getD_cons_succ]; exact ih i

/-- Claim C2: for both supported patterns the generated series is `0` at
every index at or past `N*26/30`, and every entry lies in `[0, yMax]`;
the series has length `N`. -/
theorem generateBuildUpCurve_spec (yMax seed N pattern : Nat)
    (hp : pattern = 1 ∨ pattern = 2) :
    ∃ d, generateBuildUpCurve yMax seed N pattern = some d
      ∧ d.length = N
      ∧ (∀ i, N * 26 / 30 ≤ i → i < N → d.getD i 0 = 0)
      ∧ (∀ i, i < N → 0 ≤ d.getD i 0 ∧ d.getD i 0 ≤ (yMax : ℚ)) := by
  have hrpN : N * 26 / 30 ≤ N := by
    calc N * 26 / 30 ≤ N * 30 / 30 :=
          Nat.div_le_div_right (Nat.mul_le_mul_left N (by norm_num))
      _ = N := Nat.mul_div_cancel N (by norm_num)
  have main : ∀ q : Bool,
      ∃ d, riseValues (yMax : ℚ) (N * 26 / 30) q seed 0 (N * 26 / 30) ++
            List.replicate (N - N * 26 / 30) 0 = d
        ∧ d.length = N
        ∧ (∀ i, N * 26 / 30 ≤ i → i < N → d.getD i 0 = 0)
        ∧ (∀ i, i < N → 0 ≤ d.getD i 0 ∧ d.getD i 0 ≤ (yMax : ℚ)) := by
    intro q
    refine ⟨_, rfl, ?_, ?_, ?_⟩
    · simp [riseValues_length]; omega
    · intro i hge hlt
      rw [List.getD_append_right _ _ _ _ (by rw [riseValues_length]; exact hge)]
      rw [riseValues_length]
      exact getD_replicate_zero _ _
    · intro i hlt
      rcases Nat.lt_or_ge i (N * 26 / 30) with hilt | hige
      · rw [List.getD_append _ _ _ _ (by rw [riseValues_length]; exact hilt)]
        have hlen := riseValues_length (yMax : ℚ) (N * 26 / 30) q
          (N * 26 / 30) seed 0
        have hmem : (riseValues (yMax : ℚ) (N * 26 / 30) q seed 0
            (N * 26 / 30)).getD i 0 ∈ riseValues (yMax : ℚ) (N * 26 / 30) q
            seed 0 (N * 26 / 30) := by
          rw [List.getD_eq_getElem _ _ (by rw [hlen]; exact hilt)]
          exact List.getElem_mem _
        exact riseValues_mem_bounds (yMax : ℚ) (Nat.cast_nonneg yMax) _ q _
          seed 0 _ hmem
      · rw [List.getD_append_right _ _ _ _ (by rw [riseValues_length]; exact hige)]
        rw [riseValues_length, getD_replicate_zero]
        exact ⟨le_refl 0, Nat.cast_nonneg yMax⟩
  rcases hp with rfl | rfl
  · simpa [generateBuildUpCurve] using main true
  · simpa [generateBuildUpCurve] using main false

/-- Witness for `generateBuildUpCurve_spec` at the spec scenario
`generate(30, quadratic)`: 26 rise points, last 4 points exactly 0. -/
theorem generateBuildUpCurve_spec_witness :
    ∃ d, generateBuildUpCurve 200 12345 30 1 = some d
      ∧ d.length = 30
      ∧ (∀ i, 30 * 26 / 30 ≤ i → i < 30 → d.getD i 0 = 0)
      ∧ (∀ i, i < 30 → 0 ≤ d.getD i 0 ∧ d.getD i 0 ≤ (200 : ℚ)) := by
  have h := generateBuildUpCurve_spec 200 12345 30 1 (Or.inl rfl)
  simpa using h

/-- Counterexample to C8 as stated: two generators constructed with
identical layout arguments and queried with identical `generate`
arguments produce different series when the construction-time `micros()`
readings differ — the seed is derived from the timer inside the
constructor, not supplied as a parameter. -/
theorem graphGenerator_seed_from_timer :
    (mkGraphGenerator 512 1280 30 100 30 2 200 25 80 60 0).generate 3 1
      ≠ (mkGraphGenerator 512 1280 30 100 30 2 200 25 80 60 1).generate 3 1 := by
  simp only [GraphGenerator.generate, mkGraphGenerator, generateBuildUpCurve,
    riseValues, lcgNext, randomFloatVal, constrainQ]
  norm_num

/-- Claim C8 amended: the generator's stored seed is exactly the
constructor's `micros()` timer reading (timer-derived, not an injectable
parameter), and generation is a pure function of that stored seed: equal
timer readings give bit-identical output for identical arguments. -/
theorem graphGenerator_seed_determinism
    (w h lm tm xmax xstp ymax ystp gx gy t t' N p : Nat) (ht : t = t') :
    (mkGraphGenerator w h lm tm xmax xstp ymax ystp gx gy t).randSeed = t
    ∧ (mkGraphGenerator w h lm tm xmax xstp ymax ystp gx gy t).generate N p
      = (mkGraphGenerator w h lm tm xmax xstp ymax ystp gx gy t').generate N p := by
  subst ht
  exact ⟨rfl, rfl⟩

/-- Witness for `graphGenerator_seed_determinism` at a concrete timer
reading. -/
theorem graphGenerator_seed_determinism_witness :
    (mkGraphGenerator 512 1280 30 100 30 2 200 25 80 60 42).randSeed = 42
    ∧ (mkGraphGenerator 512 1280 30 100 30 2 200 25 80 60 42).generate 30 1
      = (mkGraphGenerator 512 1280 30 100 30 2 200 25 80 60 42).generate 30 1 :=
  graphGenerator_seed_determinism 512 1280 30 100 30 2 200 25 80 60 42 42 30 1 rfl

/-! ### maxPool theorems -/

theorem le_foldl_max (l : List ℚ) : ∀ a : ℚ, a ≤ l.foldl max a := by
  induction l with
  | nil => intro a; exact le_refl a
  | cons b t ih =>
    intro a
    exact le_trans (le_max_left a b) (ih (max a b))

theorem mem_le_foldl_max (l : List ℚ) : ∀ (a x : ℚ), x ∈ l → x ≤ l.foldl max a := by
  induction l with
  | nil => intro a x hx; simp at hx
  | cons b t ih =>
    intro a x hx
    rcases List.mem_cons.mp hx with rfl | hx
    · exact le_trans (le_max_right a x) (le_foldl_max t (max a x))
    · exact ih (max a b) x hx

theorem foldl_max_mem (l : List ℚ) : ∀ a : ℚ, l.foldl max a = a ∨ l.foldl max a ∈ l := by
  induction l with
  | nil => intro a; exact Or.inl rfl
  | cons b t ih =>
    intro a
    rcases ih (max a b) with h | h
    · rcases max_choice a b with hab | hab
      · exact Or.inl (by rw [List.foldl_cons, h, hab])
      · exact Or.inr (by rw [List.foldl_cons, h, hab]; exact List.mem_cons_self b t)
    · exact Or.inr (List.mem_cons_of_mem b h)

theorem natFloor_mul_div (i L H : Nat) :
    ⌊(i : ℚ) * ((L : ℚ) / (H : ℚ))⌋₊ = i * L / H := by
  have hc : (i : ℚ) * ((L : ℚ) / (H : ℚ)) = ((i * L : ℕ) : ℚ) / ((H : ℕ) : ℚ) := by
    push_cast
    ring
  rw [hc, Nat.floor_div_nat, Nat.floor_natCast]

/-- The value of `maxPool` at index `i`, with the window bounds written
as the exact integer quotients `i*L/H` and `(i+1)*L/H`. -/
theorem maxPool_getD (data : List ℚ) (H : Nat) (hHL : H < data.length)
    (i : Nat) (hi : i < H) :
    (maxPool data H).getD i 0 =
      ((List.range' (i * data.length / H)
        (min ((i + 1) * data.length / H) data.length
          - i * data.length / H)).map
        (fun j => data.getD j 0)).foldl max 0 := by
  have hH : 0 < H := by omega
  simp only [maxPool, if_pos hHL]
  rw [List.getD_eq_getElem _ _ (by rw [List.length_map, List.length_range]; exact hi)]
  rw [List.getElem_map, List.getElem_range]
  have hcast : ((i : ℚ) + 1) = ((i + 1 : ℕ) : ℚ) := by push_cast; ring
  rw [natFloor_mul_div i data.length H, hcast,
    natFloor_mul_div (i + 1) data.length H]

/-- Claim C1: for a series longer than the target height with nonnegative
entries, the pre-smoothing reducer output at index `i` is the maximum of
the input over the window `[i*L/H, (i+1)*L/H)` clipped to the valid index
range — the maximum is attained at some window index and bounds every
window entry — and `reduce([5,1,5,1], 2)` yields `[5,5]` before
smoothing. -/
theorem maxPool_window_max (data : List ℚ) (H : Nat) (hHL : H < data.length)
    (hnn : ∀ q ∈ data, 0 ≤ q) (i : Nat) (hi : i < H) :
    (maxPool data H).length = H
    ∧ (∃ j, i * data.length / H ≤ j
        ∧ j < min ((i + 1) * data.length / H) data.length
        ∧ (maxPool data H).getD i 0 = data.getD j 0)
    ∧ (∀ j, i * data.length / H ≤ j →
        j < min ((i + 1) * data.length / H) data.length →
        data.getD j 0 ≤ (maxPool data H).getD i 0)
    ∧ maxPool [5, 1, 5, 1] 2 = [5, 5] := by
  have hH : 0 < H := by omega
  have hL : 0 < data.length := by omega
  -- window facts
  have hmul : i * data.length < data.length * H := by
    have h := mul_lt_mul_of_pos_right hi hL
    rw [Nat.mul_comm data.length H]
    exact h
  have hstartL : i * data.length / H < data.length :=
    (Nat.div_lt_iff_lt_mul hH).mpr hmul
  have hss : i * data.length / H < (i + 1) * data.length / H := by
    have hexp : (i + 1) * data.length = i * data.length + data.length := by
      ring
    have h2 : i * data.length + H ≤ (i + 1) * data.length := by omega
    have h4 : (i * data.length + H) / H = i * data.length / H + 1 :=
      Nat.add_div_right _ hH
    have h5 : (i * data.length + H) / H ≤ (i + 1) * data.length / H :=
      Nat.div_le_div_right h2
    omega
  have hval := maxPool_getD data H hHL i hi
  have hmemdata : ∀ j, j < data.length → data.getD j 0 ∈ data := by
    intro j hj
    rw [List.getD_eq_getElem _ _ hj]
    exact List.getElem_mem _
  have hjmem : ∀ j : Nat, (j ∈ List.range' (i * data.length / H)
        (min ((i + 1) * data.length / H) data.length - i * data.length / H)
      ↔ i * data.length / H ≤ j
        ∧ j < min ((i + 1) * data.length / H) data.length) := by
    intro j
    rw [List.mem_range']
    constructor
    · rintro ⟨k, hk, rfl⟩; omega
    · intro hb; exact ⟨j - i * data.length / H, by omega, by omega⟩
  refine ⟨?_, ?_, ?_, ?_⟩
  · simp [maxPool, if_pos hHL]
  · rw [hval]
    rcases foldl_max_mem ((List.range' (i * data.length / H)
        (min ((i + 1) * data.length / H) data.length
          - i * data.length / H)).map (fun j => data.getD j 0)) 0 with
      hzero | hmem
    · -- the fold returned its initial 0: the window head must itself be 0
      refine ⟨i * data.length / H, le_refl _, by omega, ?_⟩
      have hstartmem : data.getD (i * data.length / H) 0 ∈
          (List.range' (i * data.length / H)
            (min ((i + 1) * data.length / H) data.length
              - i * data.length / H)).map (fun j => data.getD j 0) :=
        List.mem_map.mpr ⟨i * data.length / H,
          (hjmem _).mpr ⟨le_refl _, by omega⟩, rfl⟩
      have hle := mem_le_foldl_max _ 0 _ hstartmem
      rw [hzero] at hle
      have hge := hnn _ (hmemdata _ hstartL)
      rw [hzero]
      exact (le_antisymm hle hge).symm
    · rcases List.mem_map.mp hmem with ⟨j, hj, hjv⟩
      rcases (hjmem j).mp hj with ⟨h1, h2⟩
      exact ⟨j, h1, h2, hjv.symm⟩
  · intro j h1 h2
    rw [hval]
    exact mem_le_foldl_max _ 0 _
      (List.mem_map.mpr ⟨j, (hjmem j).mpr ⟨h1, h2⟩, rfl⟩)
  · norm_num [maxPool, List.range_succ, List.range', max_def]

/-- Witness for `maxPool_window_max` at the spec scenario
`reduce([5,1,5,1], 2)`, window 0. -/
theorem maxPool_window_max_witness :
    (maxPool [5, 1, 5, 1] 2).length = 2
    ∧ (∃ j, 0 * ([5, 1, 5, (1 : ℚ)] : List ℚ).length / 2 ≤ j
        ∧ j < min ((0 + 1) * ([5, 1, 5, (1 : ℚ)] : List ℚ).length / 2)
            ([5, 1, 5, (1 : ℚ)] : List ℚ).length
        ∧ (maxPool [5, 1, 5, 1] 2).getD 0 0 = ([5, 1, 5, (1 : ℚ)] : List ℚ).getD j 0)
    ∧ (∀ j, 0 * ([5, 1, 5, (1 : ℚ)] : List ℚ).length / 2 ≤ j →
        j < min ((0 + 1) * ([5, 1, 5, (1 : ℚ)] : List ℚ).length / 2)
            ([5, 1, 5, (1 : ℚ)] : List ℚ).length →
        ([5, 1, 5, (1 : ℚ)] : List ℚ).getD j 0 ≤ (maxPool [5, 1, 5, 1] 2).getD 0 0)
    ∧ maxPool [5, 1, 5, 1] 2 = [5, 5] :=
  maxPool_window_max [5, 1, 5, 1] 2 (by norm_num) (by norm_num) 0 (by norm_num)

/-! ### applyMovingAverage theorems -/

/-- The consecutive integers `a, a+1, ..., a+n-1` filtered to `[0, len)`
are exactly the natural numbers from `a.toNat` up to `min (a+n) len`. -/
theorem filter_intRange (len : Nat) : ∀ (n : Nat) (a : Int) (lo cnt : Nat),
    lo = a.toNat → cnt = (min (a + (n : Int)) (len : Int)).toNat - a.toNat →
    ((List.range n).map (fun (k : Nat) => a + (k : Int))).filter
        (fun j => decide (0 ≤ j) && decide (j < (len : Int)))
      = (List.range' lo cnt).map (fun (j : Nat) => (j : Int)) := by
  intro n
  induction n with
  | zero =>
    intro a lo cnt hlo hcnt
    have hc0 : cnt = 0 := by omega
    subst hc0
    simp
  | succ n ih =>
    intro a lo cnt hlo hcnt
    rw [List.range_succ_eq_map]
    simp only [List.map_cons, Nat.cast_zero, add_zero, List.map_map]
    have hfun : ((fun (k : Nat) => a + (k : Int)) ∘ Nat.succ)
        = (fun (k : Nat) => (a + 1) + (k : Int)) := by
      funext k
      simp only [Function.comp_apply]
      push_cast
      ring
    rw [hfun, List.filter_cons]
    by_cases ha : 0 ≤ a ∧ a < (len : Int)
    · rw [if_pos (by simp [ha.1, ha.2])]
      obtain ⟨m, hm⟩ : ∃ m, cnt = m + 1 := ⟨cnt - 1, by omega⟩
      subst hm
      rw [ih (a + 1) (lo + 1) m (by omega) (by omega)]
      rw [List.range'_succ]
      simp only [List.map_cons]
      rw [hlo, Int.toNat_of_nonneg ha.1]
    · rw [if_neg (by simpa using ha)]
      rw [ih (a + 1) ((a + 1).toNat) cnt rfl (by omega)]
      rcases (by omega : a < 0 ∨ (len : Int) ≤ a) with hneg | hge
      · have hs : (a + 1).toNat = lo := by omega
        rw [hs]
      · have hc0 : cnt = 0 := by omega
        rw [hc0]
        rfl

/-- Claim C5: smoothing with the reference window of 11 replaces each
element by the mean over the indices `[i-5, i+5]` clipped to the valid
range, dividing by the count of in-range indices. -/
theorem applyMovingAverage_spec (data : List ℚ) (i : Nat)
    (hi : i < data.length) :
    (applyMovingAverage data 11).length = data.length
    ∧ (applyMovingAverage data 11).getD i 0 = specWindowMean data i := by
  constructor
  · simp [applyMovingAverage]
  · simp only [applyMovingAverage, if_neg (by norm_num : ¬(11 < 2))]
    rw [List.getD_eq_getElem _ _
      (by rw [List.length_map, List.length_range]; exact hi)]
    rw [List.getElem_map, List.getElem_range]
    have h112 : (11 : Nat) / 2 = 5 := rfl
    simp only [windowIdx, h112]
    have hrw := filter_intRange data.length (2 * 5 + 1) ((i : Int) - (5 : Nat))
      (i - 5) (min (i + 5) (data.length - 1) + 1 - (i - 5))
      (by omega) (by push_cast; omega)
    rw [hrw]
    rw [List.map_map]
    have hcomp : ((fun j : Int => data.getD j.toNat 0) ∘ fun j : Nat => (j : Int))
        = fun j : Nat => data.getD j 0 := by
      funext j
      simp
    rw [hcomp, List.length_map, List.length_range']
    rfl

/-- Witness for `applyMovingAverage_spec` at `data = [1, 2, 3, 4]`,
`i = 1`. -/
theorem applyMovingAverage_spec_witness :
    (applyMovingAverage [1, 2, 3, 4] 11).length = ([1, 2, 3, (4 : ℚ)] : List ℚ).length
    ∧ (applyMovingAverage [1, 2, 3, 4] 11).getD 1 0
      = specWindowMean [1, 2, 3, 4] 1 :=
  applyMovingAverage_spec [1, 2, 3, 4] 1 (by norm_num)

/-! ### setPixel theorems -/

theorem setPixel_width (c : Canvas) (x y : Int) :
    (setPixel c x y).width = c.width := by
  unfold setPixel; split <;> rfl

theorem setPixel_height (c : Canvas) (x y : Int) :
    (setPixel c x y).height = c.height := by
  unfold setPixel; split <;> rfl

theorem setPixel_bytesPerLine (c : Canvas) (x y : Int) :
    (setPixel c x y).bytesPerLine = c.bytesPerLine := by
  unfold setPixel; split <;> rfl

theorem setPixel_dataLength (c : Canvas) (x y : Int) :
    (setPixel c x y).data.length = c.data.length := by
  unfold setPixel
  split
  · rfl
  · simp [List.length_set]

theorem setPixel_WF (c : Canvas) (h : c.WF) (x y : Int) :
    (setPixel c x y).WF := by
  refine ⟨?_, ?_, ?_⟩
  · rw [setPixel_width]; exact h.1
  · rw [setPixel_bytesPerLine, setPixel_width]; exact h.2.1
  · rw [setPixel_dataLength, setPixel_bytesPerLine, setPixel_height]
    exact h.2.2

theorem byteIndex_lt (B H a b : Nat) (ha : a < B) (hb : b < H) :
    a + b * B < B * H := by
  calc a + b * B < B + b * B := by omega
    _ = (b + 1) * B := by ring
    _ ≤ H * B := Nat.mul_le_mul_right B (by omega)
    _ = B * H := Nat.mul_comm H B

theorem shiftRight_0x80 (m : Nat) (hm : m < 8) :
    0x80 >>> m = 2 ^ (7 - m) := by
  interval_cases m <;> rfl

/-- Claim C6: on a well-formed canvas, an in-bounds `setPixel` makes bit
`7 - (x % 8)` of byte `(x/8) + y*(width/8)` read black, and an
out-of-bounds `setPixel` leaves every byte of the buffer unchanged. -/
theorem setPixel_spec (c : Canvas) (hWF : c.WF) (x y : Int) :
    ((0 ≤ x ∧ x < (c.width : Int) ∧ 0 ≤ y ∧ y < (c.height : Int)) →
      Nat.testBit ((setPixel c x y).data.getD
        (x.toNat / 8 + y.toNat * (c.width / 8)) 0) (7 - x.toNat % 8) = true)
    ∧ ((x < 0 ∨ (c.width : Int) ≤ x ∨ y < 0 ∨ (c.height : Int) ≤ y) →
      (setPixel c x y).data = c.data) := by
  obtain ⟨hdvd, hbpl, hlen⟩ := hWF
  constructor
  · rintro ⟨hx0, hxw, hy0, hyh⟩
    rw [← hbpl]
    have hnot : ¬(x < 0 ∨ (c.width : Int) ≤ x ∨ y < 0 ∨ (c.height : Int) ≤ y) := by
      omega
    simp only [setPixel, if_neg hnot]
    have hidx : x.toNat / 8 + y.toNat * c.bytesPerLine < c.data.length := by
      rw [hlen]
      apply byteIndex_lt
      · rw [hbpl]; obtain ⟨k, hk⟩ := hdvd; omega
      · omega
    rw [List.getD_eq_getElem _ _ (by rw [List.length_set]; exact hidx),
      List.getElem_set_self]
    rw [shiftRight_0x80 _ (Nat.mod_lt _ (by norm_num))]
    simp [Nat.testBit_or, Nat.testBit_two_pow_self]
  · intro hoob
    simp [setPixel, if_pos hoob]

/-- Witness for `setPixel_spec` on an 8×2 canvas at `(3, 1)` and at the
out-of-bounds `(3, 5)`. -/
theorem setPixel_spec_witness :
    (((0 : Int) ≤ 3 ∧ (3 : Int) < ((mkCanvas 8 2).width : Int)
        ∧ (0 : Int) ≤ 1 ∧ (1 : Int) < ((mkCanvas 8 2).height : Int)) →
      Nat.testBit ((setPixel (mkCanvas 8 2) 3 1).data.getD
        ((3 : Int).toNat / 8 + (1 : Int).toNat * ((mkCanvas 8 2).width / 8)) 0)
        (7 - (3 : Int).toNat % 8) = true)
    ∧ (((3 : Int) < 0 ∨ ((mkCanvas 8 2).width : Int) ≤ 3 ∨ (1 : Int) < 0
        ∨ ((mkCanvas 8 2).height : Int) ≤ 1) →
      (setPixel (mkCanvas 8 2) 3 1).data = (mkCanvas 8 2).data) :=
  setPixel_spec (mkCanvas 8 2) (by refine ⟨⟨1, rfl⟩, rfl, ?_⟩; simp [mkCanvas]) 3 1

/-- Claim C10: an in-bounds `setPixel` changes at most the single bit
`7 - (x % 8)` of byte `(x/8) + y*bytesPerLine`: the width, height and
bytes-per-line fields, every other byte, and every other bit of the
touched byte are unchanged, and every bit that was set stays set. -/
theorem setPixel_frame (c : Canvas) (hWF : c.WF) (x y : Int)
    (hx0 : 0 ≤ x) (hxw : x < (c.width : Int)) (hy0 : 0 ≤ y)
    (hyh : y < (c.height : Int)) :
    (setPixel c x y).width = c.width
    ∧ (setPixel c x y).height = c.height
    ∧ (setPixel c x y).bytesPerLine = c.bytesPerLine
    ∧ (∀ k, k ≠ x.toNat / 8 + y.toNat * c.bytesPerLine →
        (setPixel c x y).data.getD k 0 = c.data.getD k 0)
    ∧ (∀ b, b ≠ 7 - x.toNat % 8 →
        Nat.testBit ((setPixel c x y).data.getD
          (x.toNat / 8 + y.toNat * c.bytesPerLine) 0) b
        = Nat.testBit (c.data.getD
          (x.toNat / 8 + y.toNat * c.bytesPerLine) 0) b)
    ∧ (∀ k b, Nat.testBit (c.data.getD k 0) b = true →
        Nat.testBit ((setPixel c x y).data.getD k 0) b = true) := by
  obtain ⟨hdvd, hbpl, hlen⟩ := hWF
  have hnot : ¬(x < 0 ∨ (c.width : Int) ≤ x ∨ y < 0 ∨ (c.height : Int) ≤ y) := by
    omega
  have hidx : x.toNat / 8 + y.toNat * c.bytesPerLine < c.data.length := by
    rw [hlen]
    apply byteIndex_lt
    · rw [hbpl]; obtain ⟨k, hk⟩ := hdvd; omega
    · omega
  have hunch : ∀ k, k ≠ x.toNat / 8 + y.toNat * c.bytesPerLine →
      (setPixel c x y).data.getD k 0 = c.data.getD k 0 := by
    intro k hk
    simp only [setPixel, if_neg hnot]
    rw [List.getD_eq_getElem?_getD, List.getD_eq_getElem?_getD,
      List.getElem?_set_ne (Ne.symm hk)]
    exact (List.getD_eq_getElem?_getD _ _ _).symm ▸ rfl
  have hself : (setPixel c x y).data.getD
      (x.toNat / 8 + y.toNat * c.bytesPerLine) 0
      = c.data.getD (x.toNat / 8 + y.toNat * c.bytesPerLine) 0
        ||| (0x80 >>> (x.toNat % 8)) := by
    simp only [setPixel, if_neg hnot]
    rw [List.getD_eq_getElem _ _ (by rw [List.length_set]; exact hidx),
      List.getElem_set_self]
  refine ⟨setPixel_width c x y, setPixel_height c x y,
    setPixel_bytesPerLine c x y, hunch, ?_, ?_⟩
  · intro b hb
    rw [hself, shiftRight_0x80 _ (Nat.mod_lt _ (by norm_num))]
    simp [Nat.testBit_or, Nat.testBit_two_pow_of_ne (Ne.symm hb)]
  · intro k b htb
    by_cases hk : k = x.toNat / 8 + y.toNat * c.bytesPerLine
    · subst hk
      rw [hself, Nat.testBit_or, htb, Bool.true_or]
    · rw [hunch k hk]
      exact htb

/-- Witness for `setPixel_frame` on an 8×2 canvas at `(3, 1)`. -/
theorem setPixel_frame_witness :
    (setPixel (mkCanvas 8 2) 3 1).width = (mkCanvas 8 2).width
    ∧ (setPixel (mkCanvas 8 2) 3 1).height = (mkCanvas 8 2).height
    ∧ (setPixel (mkCanvas 8 2) 3 1).bytesPerLine = (mkCanvas 8 2).bytesPerLine
    ∧ (∀ k, k ≠ (3 : Int).toNat / 8 + (1 : Int).toNat * (mkCanvas 8 2).bytesPerLine →
        (setPixel (mkCanvas 8 2) 3 1).data.getD k 0 = (mkCanvas 8 2).data.getD k 0)
    ∧ (∀ b, b ≠ 7 - (3 : Int).toNat % 8 →
        Nat.testBit ((setPixel (mkCanvas 8 2) 3 1).data.getD
          ((3 : Int).toNat / 8 + (1 : Int).toNat * (mkCanvas 8 2).bytesPerLine) 0) b
        = Nat.testBit ((mkCanvas 8 2).data.getD
          ((3 : Int).toNat / 8 + (1 : Int).toNat * (mkCanvas 8 2).bytesPerLine) 0) b)
    ∧ (∀ k b, Nat.testBit ((mkCanvas 8 2).data.getD k 0) b = true →
        Nat.testBit ((setPixel (mkCanvas 8 2) 3 1).data.getD k 0) b = true) :=
  setPixel_frame (mkCanvas 8 2) (by refine ⟨⟨1, rfl⟩, rfl, ?_⟩; simp [mkCanvas])
    3 1 (by norm_num) (by norm_num [mkCanvas]) (by norm_num)
    (by norm_num [mkCanvas])

/-! ### drawLine theorems -/

theorem setPixel_getD_ne (c : Canvas) (x y : Int) (k : Nat)
    (hk : k ≠ x.toNat / 8 + y.toNat * c.bytesPerLine) :
    (setPixel c x y).data.getD k 0 = c.data.getD k 0 := by
  unfold setPixel
  split
  · rfl
  · simp only
    rw [List.getD_eq_getElem?_getD, List.getD_eq_getElem?_getD,
      List.getElem?_set_ne (Ne.symm hk)]
    exact (List.getD_eq_getElem?_getD _ _ _).symm

theorem setPixel_getD_self (c : Canvas) (hWF : c.WF) (x y : Int)
    (hx0 : 0 ≤ x) (hxw : x < (c.width : Int)) (hy0 : 0 ≤ y)
    (hyh : y < (c.height : Int)) :
    (setPixel c x y).data.getD (x.toNat / 8 + y.toNat * c.bytesPerLine) 0
      = c.data.getD (x.toNat / 8 + y.toNat * c.bytesPerLine) 0
        ||| (0x80 >>> (x.toNat % 8)) := by
  obtain ⟨hdvd, hbpl, hlen⟩ := hWF
  have hnot : ¬(x < 0 ∨ (c.width : Int) ≤ x ∨ y < 0 ∨ (c.height : Int) ≤ y) := by
    omega
  have hidx : x.toNat / 8 + y.toNat * c.bytesPerLine < c.data.length := by
    rw [hlen]
    apply byteIndex_lt
    · rw [hbpl]; obtain ⟨k, hk⟩ := hdvd; omega
    · omega
  simp only [setPixel, if_neg hnot]
  rw [List.getD_eq_getElem _ _ (by rw [List.length_set]; exact hidx),
    List.getElem_set_self]

theorem div_add_mul_inj (k A B u v : Nat) (hA : A < k) (hB : B < k)
    (h : A + u * k = B + v * k) : A = B ∧ u = v := by
  have h1 : (A + u * k) % k = A := by
    rw [Nat.add_mul_mod_self_right, Nat.mod_eq_of_lt hA]
  have h2 : (B + v * k) % k = B := by
    rw [Nat.add_mul_mod_self_right, Nat.mod_eq_of_lt hB]
  have hAB : A = B := by rw [← h1, ← h2, h]
  refine ⟨hAB, ?_⟩
  subst hAB
  have hk : u * k = v * k := by omega
  exact Nat.eq_of_mul_eq_mul_right (by omega) hk

theorem pixelPos_inj (c : Canvas) (hWF : c.WF) (x y px py : Int)
    (hx0 : 0 ≤ x) (hxw : x < (c.width : Int)) (hy0 : 0 ≤ y)
    (_hyh : y < (c.height : Int)) (hpx0 : 0 ≤ px) (hpxw : px < (c.width : Int))
    (hpy0 : 0 ≤ py) (_hpyh : py < (c.height : Int))
    (hidx : px.toNat / 8 + py.toNat * c.bytesPerLine
      = x.toNat / 8 + y.toNat * c.bytesPerLine)
    (hbit : 7 - px.toNat % 8 = 7 - x.toNat % 8) : px = x ∧ py = y := by
  obtain ⟨hdvd, hbpl, hlen⟩ := hWF
  obtain ⟨k, hk⟩ := hdvd
  have hbplk : c.bytesPerLine = k := by rw [hbpl]; omega
  rw [hbplk] at hidx
  have hA : px.toNat / 8 < k := by omega
  have hB : x.toNat / 8 < k := by omega
  obtain ⟨hdiv, hrow⟩ := div_add_mul_inj k _ _ _ _ hA hB hidx
  constructor
  · omega
  · omega

/-- Reading any pixel after a `setPixel`: the probed pixel is black
exactly when it was black before or it is the (in-bounds) pixel just
set. -/
theorem getPixel_setPixel (c : Canvas) (hWF : c.WF) (x y px py : Int) :
    getPixel (setPixel c x y) px py
      = (getPixel c px py
        || (decide (px = x) && decide (py = y) && inBoundsB c x y)) := by
  by_cases hxy : x < 0 ∨ (c.width : Int) ≤ x ∨ y < 0 ∨ (c.height : Int) ≤ y
  · have hIB : inBoundsB c x y = false := by
      apply decide_eq_false
      omega
    rw [hIB]
    simp [setPixel, if_pos hxy]
  · obtain ⟨hx0, hxw, hy0, hyh⟩ :
        0 ≤ x ∧ x < (c.width : Int) ∧ 0 ≤ y ∧ y < (c.height : Int) := by omega
    have hIB : inBoundsB c x y = true := by
      apply decide_eq_true
      omega
    rw [hIB, Bool.and_true]
    by_cases hp : px < 0 ∨ (c.width : Int) ≤ px ∨ py < 0 ∨ (c.height : Int) ≤ py
    · have hg1 : getPixel (setPixel c x y) px py = false := by
        unfold getPixel
        rw [setPixel_width, setPixel_height, if_pos hp]
      have hg2 : getPixel c px py = false := by
        unfold getPixel
        rw [if_pos hp]
      have hne : ¬(px = x ∧ py = y) := by
        rcases hp with h | h | h | h <;> (rintro ⟨rfl, rfl⟩; omega)
      have hd : (decide (px = x) && decide (py = y)) = false := by
        rw [← Bool.decide_and]
        exact decide_eq_false hne
      rw [hg1, hg2, hd]
      rfl
    · obtain ⟨hpx0, hpxw, hpy0, hpyh⟩ :
          0 ≤ px ∧ px < (c.width : Int) ∧ 0 ≤ py ∧ py < (c.height : Int) := by
        omega
      by_cases heq : px = x ∧ py = y
      · rw [heq.1, heq.2]
        rw [show (decide (x = x) && decide (y = y)) = true by simp,
          Bool.or_true]
        unfold getPixel
        rw [setPixel_width, setPixel_height, if_neg hxy, setPixel_bytesPerLine]
        rw [setPixel_getD_self c hWF x y hx0 hxw hy0 hyh]
        rw [shiftRight_0x80 _ (Nat.mod_lt _ (by norm_num))]
        rw [Nat.testBit_or, Nat.testBit_two_pow_self, Bool.or_true]
      · have hd : (decide (px = x) && decide (py = y)) = false := by
          rw [← Bool.decide_and]
          exact decide_eq_false heq
        rw [hd, Bool.or_false]
        unfold getPixel
        rw [setPixel_width, setPixel_height, if_neg hp, if_neg hp,
          setPixel_bytesPerLine]
        by_cases hbyte : px.toNat / 8 + py.toNat * c.bytesPerLine
            = x.toNat / 8 + y.toNat * c.bytesPerLine
        · have hbitne : 7 - px.toNat % 8 ≠ 7 - x.toNat % 8 := by
            intro hbit
            exact heq (pixelPos_inj c hWF x y px py hx0 hxw hy0 hyh hpx0
              hpxw hpy0 hpyh hbyte hbit)
          rw [hbyte, setPixel_getD_self c hWF x y hx0 hxw hy0 hyh]
          rw [shiftRight_0x80 _ (Nat.mod_lt _ (by norm_num))]
          rw [Nat.testBit_or, Nat.testBit_two_pow_of_ne (Ne.symm hbitne),
            Bool.or_false]
        · rw [setPixel_getD_ne c x y _ hbyte]

theorem inBoundsB_setPixel (c : Canvas) (x y px py : Int) :
    inBoundsB (setPixel c x y) px py = inBoundsB c px py := by
  unfold inBoundsB
  rw [setPixel_width, setPixel_height]

/-- Pixel reads after folding `setPixel` over a list of offsets
translated by `(x, y)`. -/
theorem getPixel_foldl_setPixel (x y : Int) (L : List (Int × Int)) :
    ∀ (c : Canvas), c.WF → ∀ px py,
    getPixel (L.foldl (fun a p => setPixel a (x + p.1) (y + p.2)) c) px py
      = (getPixel c px py
        || (inBoundsB c px py
          && L.any (fun p => decide (px = x + p.1) && decide (py = y + p.2)))) := by
  induction L with
  | nil =>
    intro c _ px py
    simp
  | cons p t ih =>
    intro c hWF px py
    rw [List.foldl_cons, List.any_cons]
    rw [ih (setPixel c (x + p.1) (y + p.2)) (setPixel_WF c hWF _ _) px py]
    rw [getPixel_setPixel c hWF (x + p.1) (y + p.2) px py]
    rw [inBoundsB_setPixel]
    by_cases h1 : px = x + p.1
    · by_cases h2 : py = y + p.2
      · rw [h1, h2]
        cases hg : getPixel c (x + p.1) (y + p.2) <;>
          cases hb : inBoundsB c (x + p.1) (y + p.2) <;> simp [hg, hb]
      · have hd2 : decide (py = y + p.2) = false := decide_eq_false h2
        rw [hd2]
        cases hg : getPixel c px py <;>
          cases hb : inBoundsB c px py <;> simp [hg, hb]
    · have hd1 : decide (px = x + p.1) = false := decide_eq_false h1
      rw [hd1]
      cases hg : getPixel c px py <;>
        cases hb : inBoundsB c px py <;> simp [hg, hb]

theorem foldl_setPixel_width (x y : Int) (L : List (Int × Int)) :
    ∀ c : Canvas,
      (L.foldl (fun a p => setPixel a (x + p.1) (y + p.2)) c).width = c.width := by
  induction L with
  | nil => intro c; rfl
  | cons p t ih => intro c; rw [List.foldl_cons, ih, setPixel_width]

theorem foldl_setPixel_height (x y : Int) (L : List (Int × Int)) :
    ∀ c : Canvas,
      (L.foldl (fun a p => setPixel a (x + p.1) (y + p.2)) c).height = c.height := by
  induction L with
  | nil => intro c; rfl
  | cons p t ih => intro c; rw [List.foldl_cons, ih, setPixel_height]

theorem foldl_setPixel_WF (x y : Int) (L : List (Int × Int)) :
    ∀ c : Canvas, c.WF →
      (L.foldl (fun a p => setPixel a (x + p.1) (y + p.2)) c).WF := by
  induction L with
  | nil => intro c h; exact h
  | cons p t ih =>
    intro c h
    rw [List.foldl_cons]
    exact ih _ (setPixel_WF c h _ _)

theorem mem_intRange (half : Nat) (j : Int) :
    j ∈ intRange half ↔ -(half : Int) ≤ j ∧ j ≤ half := by
  unfold intRange
  rw [List.mem_map]
  constructor
  · rintro ⟨k, hk, rfl⟩
    rw [List.mem_range] at hk
    omega
  · intro hj
    refine ⟨(j + half).toNat, ?_, by omega⟩
    rw [List.mem_range]
    omega

theorem paintSquare_width (c : Canvas) (x y : Int) (half : Nat) :
    (paintSquare c x y half).width = c.width :=
  foldl_setPixel_width x y _ c

theorem paintSquare_height (c : Canvas) (x y : Int) (half : Nat) :
    (paintSquare c x y half).height = c.height :=
  foldl_setPixel_height x y _ c

theorem paintSquare_WF (c : Canvas) (hWF : c.WF) (x y : Int) (half : Nat) :
    (paintSquare c x y half).WF :=
  foldl_setPixel_WF x y _ c hWF

/-- Pixel reads after the square stamp of `drawLine`: exactly the points
within Chebyshev distance `half` of the stamp centre (and in bounds)
become black. -/
theorem getPixel_paintSquare (c : Canvas) (hWF : c.WF) (x y : Int)
    (half : Nat) (px py : Int) :
    getPixel (paintSquare c x y half) px py
      = (getPixel c px py
        || (inBoundsB c px py
          && (decide (|px - x| ≤ (half : Int)) && decide (|py - y| ≤ (half : Int))))) := by
  unfold paintSquare
  rw [getPixel_foldl_setPixel x y _ c hWF px py]
  have hany : ((intRange half).flatMap (fun ty =>
        (intRange half).map (fun tx => (tx, ty)))).any
        (fun p => decide (px = x + p.1) && decide (py = y + p.2))
      = (decide (|px - x| ≤ (half : Int)) && decide (|py - y| ≤ (half : Int))) := by
    rw [Bool.eq_iff_iff]
    simp only [List.any_eq_true, List.mem_flatMap, List.mem_map,
      Bool.and_eq_true, decide_eq_true_eq]
    constructor
    · rintro ⟨p, ⟨ty, hty, ⟨tx, htx, rfl⟩⟩, hpx, hpy⟩
      rw [mem_intRange] at hty htx
      have hpx' : px = x + tx := hpx
      have hpy' : py = y + ty := hpy
      exact ⟨abs_le.mpr ⟨by omega, by omega⟩, abs_le.mpr ⟨by omega, by omega⟩⟩
    · rintro ⟨hx, hy⟩
      rw [abs_le] at hx hy
      refine ⟨(px - x, py - y), ⟨py - y, ?_, ⟨px - x, ?_, rfl⟩⟩,
        by show px = x + (px - x); ring, by show py = y + (py - y); ring⟩
      · rw [mem_intRange]; omega
      · rw [mem_intRange]; omega
  rw [hany]

/-- Pixel reads after the Bresenham loop: a pixel is black iff it was
black before or lies within the `half`-radius square of one of the
stepped points. -/
theorem getPixel_drawLineLoop (x1 y1 sx sy dx dy : Int) (half : Nat)
    (px py : Int) :
    ∀ (fuel : Nat) (c : Canvas), c.WF → ∀ x0 y0 err,
    getPixel (drawLineLoop x1 y1 sx sy dx dy half c x0 y0 err fuel) px py
      = (getPixel c px py
        || (inBoundsB c px py
          && (bresenhamRun x1 y1 sx sy dx dy x0 y0 err fuel).any
            (fun q => decide (|px - q.1| ≤ (half : Int))
              && decide (|py - q.2| ≤ (half : Int))))) := by
  intro fuel
  induction fuel with
  | zero =>
    intro c _ x0 y0 err
    simp [drawLineLoop, bresenhamRun]
  | succ fuel ih =>
    intro c hWF x0 y0 err
    simp only [drawLineLoop, bresenhamRun]
    by_cases hstop : x0 = x1 ∧ y0 = y1
    · rw [if_pos hstop, if_pos hstop]
      rw [getPixel_paintSquare c hWF x0 y0 half px py]
      simp [List.any_cons]
    · rw [if_neg hstop, if_neg hstop]
      rw [ih (paintSquare c x0 y0 half) (paintSquare_WF c hWF x0 y0 half)]
      rw [getPixel_paintSquare c hWF x0 y0 half px py]
      have hIB : inBoundsB (paintSquare c x0 y0 half) px py
          = inBoundsB c px py := by
        unfold inBoundsB
        rw [paintSquare_width, paintSquare_height]
      rw [hIB, List.any_cons]
      cases hg : getPixel c px py <;>
        cases hb : inBoundsB c px py <;> simp [hg, hb]

/-- Claim C9 (amended): `drawLine` paints exactly the union, over the
Bresenham-stepped points, of the squares of offsets
`[-thickness/2, thickness/2]` on both axes around each stepped point
(clipped to the canvas); every other pixel keeps its previous colour.
With thickness 1 the offset square is the single stepped pixel. -/
theorem drawLine_paints_offset_squares (c : Canvas) (hWF : c.WF)
    (x0 y0 x1 y1 : Int) (thickness : Nat) (px py : Int) :
    getPixel (drawLine c x0 y0 x1 y1 thickness) px py
      = (getPixel c px py
        || (inBoundsB c px py
          && (bresenhamPoints x0 y0 x1 y1).any
            (fun q => decide (|px - q.1| ≤ ((thickness / 2 : Nat) : Int))
              && decide (|py - q.2| ≤ ((thickness / 2 : Nat) : Int))))) := by
  unfold drawLine bresenhamPoints
  exact getPixel_drawLineLoop x1 y1 _ _ _ _ (thickness / 2) px py _ c hWF x0 y0 _

/-- Witness for `drawLine_paints_offset_squares`: an 8×8 canvas, the
segment from `(1, 1)` to `(3, 2)` with thickness 3, probed at `(2, 2)`. -/
theorem drawLine_paints_offset_squares_witness :
    getPixel (drawLine (mkCanvas 8 8) 1 1 3 2 3) 2 2
      = (getPixel (mkCanvas 8 8) 2 2
        || (inBoundsB (mkCanvas 8 8) 2 2
          && (bresenhamPoints 1 1 3 2).any
            (fun q => decide (|(2 : Int) - q.1| ≤ ((3 / 2 : Nat) : Int))
              && decide (|(2 : Int) - q.2| ≤ ((3 / 2 : Nat) : Int))))) :=
  drawLine_paints_offset_squares (mkCanvas 8 8)
    (by refine ⟨⟨1, rfl⟩, rfl, ?_⟩; simp [mkCanvas]) 1 1 3 2 3 2 2

/-- Counterexample to C9 as stated: with thickness 2 a single stamped
point paints a 3×3 block of 9 pixels (offsets `-1..1` on both axes), not
a "square of side 2" of 4 pixels. -/
theorem drawLine_thickness_two_paints_nine :
    blackCount (drawLine (mkCanvas 8 8) 3 3 3 3 2) = 9
    ∧ (9 : Nat) ≠ 2 * 2 := by
  decide

end PrinterSerial

